import Mathlib

/-!
# Verification of livi's worker channel and atom-sequence code

Shallow embedding of `src/features/worker.rs`, `src/event.rs` and the
worker-related portion of `src/plugin.rs` from the `livi` crate.

Bytes are modelled as `Nat` values (< 256 where it matters), byte buffers as
`List Nat`, and the SPSC ring buffer (`ringbuf::HeapRb<u8>`) as a FIFO list of
bytes together with its fixed capacity.  `usize`/`u32` arithmetic is `Nat`
arithmetic, with an explicit `% 2^32` where the source computes in `u32`.
-/

namespace Livi

/-! ## Byte encodings

`usize::to_be_bytes` / `usize::from_be_bytes` (8-byte big-endian) used by the
worker-message framing, and the little-endian in-memory layout of the packed
`LV2AtomEvent` struct (i64 time, u32 size, u32 type) used by the atom
sequence. -/

/-- Big-endian byte string of width `w` for the value `n` (`n.to_be_bytes`). -/
def toBeBytes : Nat → Nat → List Nat
  | 0, _ => []
  | w + 1, n => toBeBytes w (n / 256) ++ [n % 256]

/-- `usize::from_be_bytes`: big-endian bytes back to a number. -/
def fromBeBytes (bs : List Nat) : Nat :=
  bs.foldl (fun acc b => acc * 256 + b) 0

/-- Little-endian byte string of width `w` for the value `n` (struct layout of
an unsigned field on a little-endian target). -/
def toLeBytes : Nat → Nat → List Nat
  | 0, _ => []
  | w + 1, n => n % 256 :: toLeBytes w (n / 256)

/-- Read a little-endian byte string back as a number. -/
def fromLeBytes : List Nat → Nat
  | [] => 0
  | b :: bs => b + 256 * fromLeBytes bs

/-! ## The ring channel (`ringbuf::HeapRb<u8>` split into producer/consumer)

`free_len` is capacity minus the number of queued bytes; `push_slice` appends
bytes (callers check `free_len` first); `pop_slice` removes up to the
destination size from the front; `write_into(w, Some(n))` removes up to `n`
queued bytes into `w`; `read_from(r, Some(n))` appends up to `n` bytes taken
from `r`.  Reading from / writing into an in-memory slice never fails. -/

structure Channel where
  capacity : Nat
  data : List Nat
deriving DecidableEq, Repr

def Channel.len (ch : Channel) : Nat := ch.data.length

def Channel.freeLen (ch : Channel) : Nat := ch.capacity - ch.data.length

/-- `MAX_MESSAGE_SIZE` from `src/features/worker.rs`. -/
def MAX_MESSAGE_SIZE : Nat := 8192

/-- `N_MESSAGES` from `src/features/worker.rs`. -/
def N_MESSAGES : Nat := 4

/-- `instantiate_queue`: a fresh ring of capacity
`MAX_MESSAGE_SIZE * N_MESSAGES` (both halves share this state). -/
def instantiateQueue : Channel :=
  { capacity := MAX_MESSAGE_SIZE * N_MESSAGES, data := [] }

/-- `lv2_sys::LV2_Worker_Status` values used by the code. -/
inductive LV2WorkerStatus
  | success
  | errUnknown
  | errNoSpace
deriving DecidableEq, Repr

/-- The 8-byte big-endian length prefix followed by the payload: the frame
`publish_message` writes for one message. -/
def encodeFrame (p : List Nat) : List Nat := toBeBytes 8 p.length ++ p

/-- `publish_message` from `src/features/worker.rs`: reject sizes above
`MAX_MESSAGE_SIZE`; reject when `free_len` cannot hold prefix + payload;
otherwise push the 8-byte big-endian size then the payload.  `read_from` on an
in-memory slice cannot fail, so the fallible branch returns success. -/
def publishMessage (ch : Channel) (body : List Nat) : LV2WorkerStatus × Channel :=
  let size := body.length
  if size > MAX_MESSAGE_SIZE then
    (LV2WorkerStatus.errNoSpace, ch)
  else
    let totalSize := 8 + size
    if ch.freeLen < totalSize then
      (LV2WorkerStatus.errNoSpace, ch)
    else
      (LV2WorkerStatus.success,
        { capacity := ch.capacity, data := ch.data ++ encodeFrame body })

/-- `WorkerMessage`: a declared size plus the fixed `MAX_MESSAGE_SIZE`-byte
body buffer it was copied into. -/
structure WorkerMessage where
  size : Nat
  body : List Nat
deriving DecidableEq, Repr

/-- `pop_message`: `pop_slice` moves `min 8 len` bytes into the zeroed size
buffer, the size is decoded big-endian, and `write_into(.., Some(size))` moves
`min size (min remaining MAX_MESSAGE_SIZE)` bytes into the zeroed body. -/
def popMessage (ch : Channel) : WorkerMessage × Channel :=
  let prefixLen := min 8 ch.data.length
  let sizeBytes := ch.data.take prefixLen ++ List.replicate (8 - prefixLen) 0
  let size := fromBeBytes sizeBytes
  let rest := ch.data.drop prefixLen
  let moved := min size (min rest.length MAX_MESSAGE_SIZE)
  (⟨size, rest.take moved ++ List.replicate (MAX_MESSAGE_SIZE - moved) 0⟩,
    { capacity := ch.capacity, data := rest.drop moved })

/-- The drain loop shared by `Worker::do_work` and `handle_work_responses`:
`while receiver.len() > size_of::<usize>() { pop_message(..) }`.  Each
iteration removes at least 8 bytes, so `ch.data.length` iterations always
suffice; the fuel argument only makes the recursion structural. -/
def drainLoop : Nat → Channel → List WorkerMessage × Channel
  | 0, ch => ([], ch)
  | fuel + 1, ch =>
    if 8 < ch.data.length then
      let r := popMessage ch
      let rest := drainLoop fuel r.2
      (r.1 :: rest.1, rest.2)
    else
      ([], ch)

def drainAll (ch : Channel) : List WorkerMessage × Channel :=
  drainLoop ch.data.length ch

/-- Well-formed channel backlog: a concatenation of complete frames, each
declaring exactly its payload length, with every payload within
`MAX_MESSAGE_SIZE`. -/
def Channel.wf (frames : List (List Nat)) (ch : Channel) : Prop :=
  ch.data = (frames.map encodeFrame).flatten ∧
    ∀ p ∈ frames, p.length ≤ MAX_MESSAGE_SIZE

/-- Publish a list of payloads in order, requiring every publish to succeed. -/
def publishAll : Channel → List (List Nat) → Option Channel
  | ch, [] => some ch
  | ch, p :: ps =>
    match publishMessage ch p with
    | (LV2WorkerStatus.success, ch') => publishAll ch' ps
    | _ => none

/-- Apply a list of publish attempts, keeping the channel state regardless of
each call's status (failed publishes leave the channel untouched). -/
def applyPublishes : Channel → List (List Nat) → Channel
  | ch, [] => ch
  | ch, p :: ps => applyPublishes (publishMessage ch p).2 ps

/-- Pop `n` messages in sequence. -/
def popN : Nat → Channel → List WorkerMessage × Channel
  | 0, ch => ([], ch)
  | n + 1, ch =>
    let r := popMessage ch
    let rest := popN n r.2
    (r.1 :: rest.1, rest.2)

/-- The messages a drain pass dispatches from a backlog of complete frames:
every frame, except that a frame with empty payload sitting at the very end
(backlog exactly 8 bytes at that point) is below the `> 8` loop threshold and
stays queued. -/
def drainedFrames : List (List Nat) → List (List Nat)
  | [] => []
  | [p] => if p.length = 0 then [] else [p]
  | p :: q :: rest => p :: drainedFrames (q :: rest)

/-- The bytes a drain pass leaves in the channel. -/
def residualData : List (List Nat) → List Nat
  | [] => []
  | [p] => if p.length = 0 then encodeFrame [] else []
  | _ :: q :: rest => residualData (q :: rest)

/-- The message value `pop_message` builds for a payload `p`. -/
def frameMessage (p : List Nat) : WorkerMessage :=
  ⟨p.length, p ++ List.replicate (MAX_MESSAGE_SIZE - p.length) 0⟩

/-! ## The atom sequence (`src/event.rs`)

The buffer is a `Vec<u8>`; the sequence header (`LV2AtomSequence`: an 8-byte
`LV2Atom` with `size`/`mytype` followed by the 8-byte body header) occupies
the first 16 bytes.  We mirror the header field `sequence.atom.size` as a
separate `atomSize` field instead of re-decoding it from the byte list at each
access, and keep the raw event bytes in `buffer` at their real offsets.
Events start at buffer offset 16; an event is a packed `LV2AtomEvent` header
(i64 `time_in_frames`, u32 `size`, u32 `mytype`, little-endian as on x86)
followed by `size` payload bytes. -/

/-- Truncation to `u32`, the type of `sequence.atom.size`, `event.body.size`
and the arithmetic in `push_event` (`capacity as u32`, u32 additions, which
wrap in release builds). -/
def u32 (n : Nat) : Nat := n % 4294967296

/-- `lv2_raw::lv2_atom_pad_size`: round a u32 size up to the next multiple of
8 (`(size + 7) & !7u32`, with a wrapping u32 addition). -/
def lv2AtomPadSize (n : Nat) : Nat := u32 (n + 7) / 8 * 8

/-- Pure (non-wrapping) round-up-to-8, the value `lv2_atom_pad_size` computes
whenever `n + 7` fits in u32. -/
def padNat (n : Nat) : Nat := (n + 7) / 8 * 8

/-- `ptr::copy_nonoverlapping` of `bs` into `buf` at byte offset `off`
(callers guarantee `off + bs.length ≤ buf.length`; out of bounds would be UB
in the source). -/
def writeBytes (buf : List Nat) (off : Nat) (bs : List Nat) : List Nat :=
  buf.take off ++ bs ++ buf.drop (off + bs.length)

/-- Read `n` bytes of `buf` starting at offset `off`. -/
def readBytes (buf : List Nat) (off n : Nat) : List Nat :=
  (buf.drop off).take n

/-- In-memory bytes of an `i64` (two's complement, little-endian). -/
def encodeI64 (t : Int) : List Nat := toLeBytes 8 (t % (2 ^ 64 : Int)).toNat

/-- Decode 8 little-endian bytes as an `i64`. -/
def decodeI64 (bs : List Nat) : Int :=
  let n := fromLeBytes bs
  if n < 2 ^ 63 then (n : Int) else (n : Int) - 2 ^ 64

/-- The bytes of a packed `LV2AtomEvent` (built by `LV2AtomEventBuilder::new`)
immediately followed by its payload: i64 time, u32 size, u32 type, payload. -/
def encodeEvent (time : Int) (ty : Nat) (payload : List Nat) : List Nat :=
  encodeI64 time ++ toLeBytes 4 payload.length ++ toLeBytes 4 ty ++ payload

/-- `EventError` from `src/error.rs`. -/
inductive EventError
  | dataTooLarge (maxSupportedSize actualSize : Nat)
  | sequenceFull (capacity requested : Nat)
deriving DecidableEq, Repr

/-- `LV2AtomSequence`: the byte buffer, with the header field
`sequence.atom.size` mirrored in `atomSize` (a u32 counting the sequence body:
8 bytes of body header plus all padded event frames). -/
structure LV2AtomSequence where
  atomSize : Nat
  buffer : List Nat
deriving DecidableEq, Repr

/-- `LV2AtomSequence::capacity`: the length of the underlying `Vec<u8>`. -/
def LV2AtomSequence.capacity (s : LV2AtomSequence) : Nat := s.buffer.length

/-- `MINIMUM_ATOM_SEQUENCE_SIZE = size_of::<lv2_raw::LV2AtomSequence>()`. -/
def MINIMUM_ATOM_SEQUENCE_SIZE : Nat := 16

/-- `LV2AtomSequence::clear` via `lv2_atom_sequence_clear`: set
`seq.atom.size = size_of::<LV2AtomSequenceBody>() = 8`. -/
def LV2AtomSequence.clear (s : LV2AtomSequence) : LV2AtomSequence :=
  { s with atomSize := 8 }

/-- `LV2AtomSequence::new`: a zeroed buffer of `max capacity 16` bytes,
cleared. -/
def LV2AtomSequence.new (capacity : Nat) : LV2AtomSequence :=
  LV2AtomSequence.clear
    { atomSize := 0,
      buffer := List.replicate (max capacity MINIMUM_ATOM_SEQUENCE_SIZE) 0 }

/-- `LV2AtomSequence::size`: `size_of_val(&raw.atom) (= 8) + raw.atom.size`. -/
def LV2AtomSequence.size (s : LV2AtomSequence) : Nat := 8 + s.atomSize

/-- `LV2AtomSequence::push_event` for an event built from `(time, ty,
payload)` (the builder stores exactly `payload` and sets `body.size =
payload.length`, which `u32::try_from` requires to fit u32):

* `event_size = size_of::<LV2AtomEvent>() as u32 + event.body.size` (u32);
* fail with `SequenceFull` when `capacity as u32` is below the *unpadded*
  `current_sequence_size + event_size` (u32 arithmetic);
* otherwise copy `event_size` bytes of the packed event to
  `lv2_atom_sequence_end(&body, atom.size)` — buffer offset
  `8 + lv2_atom_pad_size(atom.size)` — and grow `atom.size` by the *padded*
  `lv2_atom_pad_size(event_size)`. -/
def LV2AtomSequence.pushEvent (s : LV2AtomSequence) (time : Int) (ty : Nat)
    (payload : List Nat) : Except EventError LV2AtomSequence :=
  let eventSize := u32 (16 + payload.length)
  let capacity := u32 s.capacity
  let currentSequenceSize := u32 (8 + s.atomSize)
  if capacity < u32 (currentSequenceSize + eventSize) then
    Except.error (EventError.sequenceFull capacity (u32 (currentSequenceSize + eventSize)))
  else
    Except.ok
      { atomSize := u32 (s.atomSize + lv2AtomPadSize eventSize),
        buffer := writeBytes s.buffer (8 + lv2AtomPadSize s.atomSize)
          ((encodeEvent time ty payload).take eventSize) }

/-- Push a list of `(time, type, payload)` events left to right, stopping at
the first error (each push through a builder holding that payload). -/
def pushAll (s : LV2AtomSequence) :
    List (Int × Nat × List Nat) → Except EventError LV2AtomSequence
  | [] => Except.ok s
  | e :: es =>
    match s.pushEvent e.1 e.2.1 e.2.2 with
    | Except.ok s' => pushAll s' es
    | Except.error err => Except.error err

/-- The iterator loop of `LV2AtomSequenceIter::next`: stop when
`lv2_atom_sequence_is_end(body, size, next)` — the cursor has reached
`body + size`, i.e. buffer offset `8 + size`; otherwise read the packed event
header and `body.size` payload bytes at the cursor and advance by
`size_of::<LV2AtomEvent>() + lv2_atom_pad_size(body.size)`.  The cursor
starts at `lv2_atom_sequence_begin(&body)`, buffer offset 16, and advances by
at least 16 per step, so `size + 1` iterations always suffice; the fuel only
makes the recursion structural. -/
def iterLoop : Nat → List Nat → Nat → Nat → List (Int × Nat × List Nat)
  | 0, _, _, _ => []
  | fuel + 1, buf, size, next =>
    if 8 + size ≤ next then []
    else
      let time := decodeI64 (readBytes buf next 8)
      let s := fromLeBytes (readBytes buf (next + 8) 4)
      let ty := fromLeBytes (readBytes buf (next + 12) 4)
      (time, ty, readBytes buf (next + 16) s) ::
        iterLoop fuel buf size (next + 16 + lv2AtomPadSize s)

/-- `LV2AtomSequence::iter` collected into a list of
`(time_in_frames, my_type, data)` triples. -/
def LV2AtomSequence.iterEvents (s : LV2AtomSequence) : List (Int × Nat × List Nat) :=
  iterLoop (s.atomSize + 1) s.buffer s.atomSize 16

/-- The well-formedness the sequence code maintains: `atom.size` is 8 plus a
sum of padded frames (hence a multiple of 8 and at least 8), the total
`size()` spills past `capacity()` by at most the final frame's padding, and
the capacity is at least the 16-byte minimum.  The `2^30` bound keeps every
u32 computation of `push_event` below the wrap-around. -/
def SeqInv (s : LV2AtomSequence) : Prop :=
  s.atomSize % 8 = 0 ∧ 8 ≤ s.atomSize ∧ 8 + s.atomSize ≤ s.capacity + 7 ∧
    16 ≤ s.capacity ∧ s.capacity ≤ 2 ^ 30

/-- The event frames of `events` laid out in `buf` one after another from
offset `off`, each frame at the 8-byte-aligned offset after its predecessor's
padded frame. -/
def EventsLayout (buf : List Nat) : Nat → List (Int × Nat × List Nat) → Prop
  | _, [] => True
  | off, e :: es =>
    readBytes buf off (16 + e.2.2.length) = encodeEvent e.1 e.2.1 e.2.2 ∧
      EventsLayout buf (off + padNat (16 + e.2.2.length)) es

/-- Bounds under which an event round-trips through the byte layout: the i64
time is in range, the u32 type is in range, and the frame size stays far from
u32 wrap-around. -/
def GoodEvent (e : Int × Nat × List Nat) : Prop :=
  -(2 ^ 63) ≤ e.1 ∧ e.1 < 2 ^ 63 ∧ e.2.1 < 2 ^ 32 ∧ 16 + e.2.2.length ≤ 2 ^ 30

/-- Total padded size of the frames of `events`, the amount `atom.size` grows
past its initial 8 while they are pushed. -/
def framesSize (events : List (Int × Nat × List Nat)) : Nat :=
  (events.map fun e => padNat (16 + e.2.2.length)).sum

/-- The sequence state after `events` have been pushed into a fresh sequence
of capacity `cap`: the structural invariant holds, `atom.size` accounts for
exactly the padded frames, and the frames are laid out from offset 16. -/
def PushedState (cap : Nat) (events : List (Int × Nat × List Nat))
    (s : LV2AtomSequence) : Prop :=
  SeqInv s ∧ s.capacity = cap ∧ s.atomSize = 8 + framesSize events ∧
    EventsLayout s.buffer 16 events

/-! ## Worker, WorkerManager (`src/features/worker.rs`) and `Instance::run`
(`src/plugin.rs`)

Foreign plugin callbacks are opaque: the plugin's `work` callback is modelled
by a parameter `wfn` giving, per dispatched message, the list of response
payloads the plugin emits through `worker_respond` (each published into the
worker's sender channel).  `Worker.hasWork` models whether
`interface.work` is `Some`. -/

structure Worker where
  pluginAlive : Bool
  hasWork : Bool
  receiver : Channel
  sender : Channel
deriving DecidableEq, Repr

/-- The drain loop of `Worker::do_work` (the `plugin_is_alive` conjunct of the
loop guard cannot change while the lock is held, so it is hoisted into
`Worker.doWork`): pop a message while more than 8 bytes are queued; if the
interface has a work function, invoke it (recording the message) and publish
whatever responses it emits.  Returns the final receiver, the final sender and
the messages the work function was invoked on. -/
def doWorkLoop (wfn : WorkerMessage → List (List Nat)) (hasWork : Bool) :
    Nat → Channel → Channel → Channel × Channel × List WorkerMessage
  | 0, recv, send => (recv, send, [])
  | fuel + 1, recv, send =>
    if 8 < recv.data.length then
      let r := popMessage recv
      if hasWork then
        let send' := (wfn r.1).foldl (fun s p => (publishMessage s p).2) send
        let rest := doWorkLoop wfn hasWork fuel r.2 send'
        (rest.1, rest.2.1, r.1 :: rest.2.2)
      else
        let rest := doWorkLoop wfn hasWork fuel r.2 send
        (rest.1, rest.2.1, rest.2.2)
    else
      (recv, send, [])

/-- `Worker::do_work`: under the `plugin_is_alive` lock, drain the request
channel and dispatch to the plugin's work function — or do nothing at all if
the liveness flag is false. -/
def Worker.doWork (wfn : WorkerMessage → List (List Nat)) (w : Worker) :
    Worker × List WorkerMessage :=
  if w.pluginAlive then
    let r := doWorkLoop wfn w.hasWork w.receiver.data.length w.receiver w.sender
    ({ w with receiver := r.1, sender := r.2.1 }, r.2.2)
  else
    (w, [])

/-- `Worker::should_keep_working`: the liveness flag. -/
def Worker.shouldKeepWorking (w : Worker) : Bool := w.pluginAlive

/-- `impl Drop for Instance` sets the shared `is_alive` flag to false; seen
from the worker this flips `pluginAlive`. -/
def Worker.retire (w : Worker) : Worker := { w with pluginAlive := false }

structure WorkerManager where
  newWorkers : List Worker
  runningWorkers : List Worker
deriving DecidableEq, Repr

/-- `WorkerManager::add_worker`. -/
def WorkerManager.addWorker (m : WorkerManager) (w : Worker) : WorkerManager :=
  { m with newWorkers := m.newWorkers ++ [w] }

/-- `WorkerManager::workers_count`. -/
def WorkerManager.workersCount (m : WorkerManager) : Nat :=
  m.runningWorkers.length + m.newWorkers.length

/-- `WorkerManager::run_workers`: merge the incoming workers into the running
list, run `do_work` on each, and retain only those that should keep working.
Also returns, per worker, the messages its work function was invoked on. -/
def WorkerManager.runWorkers (wfn : WorkerMessage → List (List Nat))
    (m : WorkerManager) : WorkerManager × List (List WorkerMessage) :=
  let workers := m.runningWorkers ++ m.newWorkers
  let results := workers.map (Worker.doWork wfn)
  ({ newWorkers := [],
     runningWorkers := (results.map Prod.fst).filter Worker.shouldKeepWorking },
   results.map Prod.snd)

/-- `lv2_sys::LV2_Worker_Interface` as `Instance::run` sees it: whether the
`work_response` and `end_run` function pointers are present. -/
structure WorkerInterface where
  hasWorkResponse : Bool
  hasEndRun : Bool
deriving DecidableEq, Repr

/-- `RunError` from `src/error.rs`. -/
inductive RunError
  | sampleCountTooSmall (minSupported actual : Nat)
  | sampleCountTooLarge (maxSupported actual : Nat)
  | audioInputsSizeMismatch (expected actual : Nat)
  | audioInputSampleCountTooSmall (expected actual : Nat)
  | audioOutputsSizeMismatch (expected actual : Nat)
  | audioOutputSampleCountTooSmall (expected actual : Nat)
  | atomSequenceInputsSizeMismatch (expected actual : Nat)
  | atomSequenceOutputsSizeMismatch (expected actual : Nat)
  | cvInputsSizeMismatch (expected actual : Nat)
  | cvOutputsSizeMismatch (expected actual : Nat)
deriving DecidableEq, Repr

/-- The externally observable calls `Instance::run` makes into plugin code, in
order: the plugin's `run` (process) function, each `work_response` delivery,
and the `end_run` notification. -/
inductive RunAction
  | process (samples : Nat)
  | workResponse (size : Nat) (body : List Nat)
  | endRun
deriving DecidableEq, Repr

inductive RunActionKind
  | process
  | workResponse
  | endRun
deriving DecidableEq, Repr

def RunAction.kind : RunAction → RunActionKind
  | RunAction.process _ => RunActionKind.process
  | RunAction.workResponse _ _ => RunActionKind.workResponse
  | RunAction.endRun => RunActionKind.endRun

/-- The `Instance` state relevant to `run`: block-size limits, expected port
counts, the worker interface (if the plugin has one) and the response
channel. -/
structure Instance where
  minBlockSize : Nat
  maxBlockSize : Nat
  audioInputsCount : Nat
  audioOutputsCount : Nat
  atomSequenceInputsCount : Nat
  atomSequenceOutputsCount : Nat
  cvInputsCount : Nat
  cvOutputsCount : Nat
  workerInterface : Option WorkerInterface
  workerToInstanceReceiver : Channel
deriving DecidableEq, Repr

/-- The `PortConnections` argument of `run`, reduced to what the validation
reads: the lengths of the audio buffers and the counts of the rest. -/
structure PortConnections where
  audioInputs : List Nat
  audioOutputs : List Nat
  atomSequenceInputsCount : Nat
  atomSequenceOutputsCount : Nat
  cvInputsCount : Nat
  cvOutputsCount : Nat
deriving DecidableEq, Repr

/-- `Instance::run`: the validation chain in source order (sample-count
limits, then per-port-class count checks and per-buffer length checks for
audio), then `self.inner.run(samples)` — the plugin's process call — and
*after* it, when a worker interface is present, `handle_work_responses`
(popping every buffered response and delivering those the interface can
receive) followed by `end_run`.  Port connection plumbing
(`connect_port`) has no observable effect here and `clear_as_chunk` touches
only the caller's output sequences. -/
def validateRun (inst : Instance) (samples : Nat) (ports : PortConnections) :
    Except RunError Unit :=
  if samples < inst.minBlockSize then
    Except.error (RunError.sampleCountTooSmall inst.minBlockSize samples)
  else if inst.maxBlockSize < samples then
    Except.error (RunError.sampleCountTooLarge inst.maxBlockSize samples)
  else if ports.audioInputs.length ≠ inst.audioInputsCount then
    Except.error (RunError.audioInputsSizeMismatch inst.audioInputsCount
      ports.audioInputs.length)
  else match ports.audioInputs.find? (fun l => l < samples) with
  | some l => Except.error (RunError.audioInputSampleCountTooSmall samples l)
  | none =>
    if ports.audioOutputs.length ≠ inst.audioOutputsCount then
      Except.error (RunError.audioOutputsSizeMismatch inst.audioOutputsCount
        ports.audioOutputs.length)
    else match ports.audioOutputs.find? (fun l => l < samples) with
    | some l => Except.error (RunError.audioOutputSampleCountTooSmall samples l)
    | none =>
      if ports.atomSequenceInputsCount ≠ inst.atomSequenceInputsCount then
        Except.error (RunError.atomSequenceInputsSizeMismatch
          inst.atomSequenceInputsCount ports.atomSequenceInputsCount)
      else if ports.atomSequenceOutputsCount ≠ inst.atomSequenceOutputsCount then
        Except.error (RunError.atomSequenceOutputsSizeMismatch
          inst.atomSequenceOutputsCount ports.atomSequenceOutputsCount)
      else if ports.cvInputsCount ≠ inst.cvInputsCount then
        Except.error (RunError.cvInputsSizeMismatch inst.cvInputsCount
          ports.cvInputsCount)
      else if ports.cvOutputsCount ≠ inst.cvOutputsCount then
        Except.error (RunError.cvOutputsSizeMismatch inst.cvOutputsCount
          ports.cvOutputsCount)
      else
        Except.ok ()

def instanceRun (inst : Instance) (samples : Nat) (ports : PortConnections) :
    Except RunError (Instance × List RunAction) :=
  match validateRun inst samples ports with
  | Except.error e => Except.error e
  | Except.ok _ =>
    match inst.workerInterface with
    | some iface =>
      let r := drainAll inst.workerToInstanceReceiver
      let responses :=
        if iface.hasWorkResponse then
          r.1.map fun m => RunAction.workResponse m.size m.body
        else []
      let endActs := if iface.hasEndRun then [RunAction.endRun] else []
      Except.ok ({ inst with workerToInstanceReceiver := r.2 },
        RunAction.process samples :: (responses ++ endActs))
    | none => Except.ok (inst, [RunAction.process samples])

theorem toBeBytes_length (w n : Nat) : (toBeBytes w n).length = w := by
  induction w generalizing n with
  | zero => rfl
  | succ w ih => simp [toBeBytes, ih]

theorem toLeBytes_length (w n : Nat) : (toLeBytes w n).length = w := by
  induction w generalizing n with
  | zero => rfl
  | succ w ih => simp [toLeBytes, ih]

theorem fromBeBytes_append_singleton (bs : List Nat) (b : Nat) :
    fromBeBytes (bs ++ [b]) = fromBeBytes bs * 256 + b := by
  simp [fromBeBytes, List.foldl_append]

theorem fromBeBytes_toBeBytes (w n : Nat) (h : n < 256 ^ w) :
    fromBeBytes (toBeBytes w n) = n := by
  induction w generalizing n with
  | zero =>
    interval_cases n
    rfl
  | succ w ih =>
    have hdiv : n / 256 < 256 ^ w := by
      apply Nat.div_lt_of_lt_mul
      calc n < 256 ^ (w + 1) := h
        _ = 256 * 256 ^ w := by ring
    calc fromBeBytes (toBeBytes (w + 1) n)
        = fromBeBytes (toBeBytes w (n / 256) ++ [n % 256]) := rfl
      _ = fromBeBytes (toBeBytes w (n / 256)) * 256 + n % 256 :=
          fromBeBytes_append_singleton _ _
      _ = n / 256 * 256 + n % 256 := by rw [ih _ hdiv]
      _ = n := by omega

theorem fromLeBytes_toLeBytes (w n : Nat) (h : n < 256 ^ w) :
    fromLeBytes (toLeBytes w n) = n := by
  induction w generalizing n with
  | zero =>
    interval_cases n
    rfl
  | succ w ih =>
    have hdiv : n / 256 < 256 ^ w := by
      apply Nat.div_lt_of_lt_mul
      calc n < 256 ^ (w + 1) := h
        _ = 256 * 256 ^ w := by ring
    calc fromLeBytes (toLeBytes (w + 1) n)
        = n % 256 + 256 * fromLeBytes (toLeBytes w (n / 256)) := rfl
      _ = n % 256 + 256 * (n / 256) := by rw [ih _ hdiv]
      _ = n := by omega

theorem encodeFrame_length (p : List Nat) :
    (encodeFrame p).length = 8 + p.length := by
  simp [encodeFrame, toBeBytes_length]

theorem flatten_encode_length (fs : List (List Nat)) :
    ((fs.map encodeFrame).flatten).length = (fs.map fun p => 8 + p.length).sum := by
  induction fs with
  | nil => rfl
  | cons p fs ih => simp [List.flatten_cons, encodeFrame_length, ih]

/-- Full characterization of `publish_message`: it writes exactly one complete
frame when the payload is within `MAX_MESSAGE_SIZE` and the ring has room for
prefix plus payload, and otherwise returns `LV2_WORKER_ERR_NO_SPACE` leaving
the ring untouched. -/
theorem publishMessage_eq (ch : Channel) (body : List Nat) :
    publishMessage ch body =
      if body.length ≤ MAX_MESSAGE_SIZE ∧ 8 + body.length ≤ ch.freeLen then
        (LV2WorkerStatus.success,
          { capacity := ch.capacity, data := ch.data ++ encodeFrame body })
      else
        (LV2WorkerStatus.errNoSpace, ch) := by
  simp only [publishMessage]
  split_ifs with h1 h2 h3 <;> first | rfl | (exfalso; omega)

theorem publishMessage_capacity (ch : Channel) (body : List Nat) :
    ((publishMessage ch body).2).capacity = ch.capacity := by
  rw [publishMessage_eq]
  split_ifs <;> rfl

theorem wf_publish_success (ch ch' : Channel) (frames : List (List Nat))
    (body : List Nat) (h : ch.wf frames)
    (hpub : publishMessage ch body = (LV2WorkerStatus.success, ch')) :
    ch'.wf (frames ++ [body]) := by
  rw [publishMessage_eq] at hpub
  split_ifs at hpub with hc
  · obtain ⟨hdata, hbound⟩ := h
    obtain rfl : ch' = { capacity := ch.capacity, data := ch.data ++ encodeFrame body } :=
      (congrArg Prod.snd hpub).symm
    constructor
    · simp [hdata]
    · intro p hp
      rcases List.mem_append.mp hp with hp | hp
      · exact hbound p hp
      · simp only [List.mem_singleton] at hp
        subst hp
        exact hc.1
  · exact absurd (congrArg Prod.fst hpub) (by simp)

theorem wf_publish_any (ch : Channel) (frames : List (List Nat)) (body : List Nat)
    (h : ch.wf frames) :
    ((publishMessage ch body).2).wf frames ∨
      ((publishMessage ch body).2).wf (frames ++ [body]) := by
  rw [publishMessage_eq]
  split_ifs with hc
  · right
    obtain ⟨hdata, hbound⟩ := h
    constructor
    · simp [hdata]
    · intro p hp
      rcases List.mem_append.mp hp with hp | hp
      · exact hbound p hp
      · simp only [List.mem_singleton] at hp
        subst hp
        exact hc.1
  · exact Or.inl h

/-- `pop_message` on a backlog of complete frames pops exactly the first
frame: the decoded size is the first payload's length and the body holds that
payload (padded with the buffer's zero initialization), leaving the remaining
frames queued. -/
theorem popMessage_wf (ch : Channel) (p : List Nat) (rest : List (List Nat))
    (h : ch.wf (p :: rest)) :
    popMessage ch =
      (⟨p.length, p ++ List.replicate (MAX_MESSAGE_SIZE - p.length) 0⟩,
       { capacity := ch.capacity, data := (rest.map encodeFrame).flatten }) := by
  obtain ⟨hdata, hbound⟩ := h
  have hp : p.length ≤ MAX_MESSAGE_SIZE := hbound p (List.mem_cons_self _ _)
  have hlen8 : (toBeBytes 8 p.length).length = 8 := toBeBytes_length _ _
  have hdata' : ch.data = toBeBytes 8 p.length ++ (p ++ (rest.map encodeFrame).flatten) := by
    simp [hdata, encodeFrame]
  have hchlen : ch.data.length = 8 + (p.length + ((rest.map encodeFrame).flatten).length) := by
    rw [hdata']
    simp [hlen8]
  simp only [popMessage]
  have hmin : min 8 ch.data.length = 8 := by omega
  rw [hmin]
  have htake : ch.data.take 8 = toBeBytes 8 p.length := by
    rw [hdata']
    exact List.take_left' hlen8
  have hdrop : ch.data.drop 8 = p ++ (rest.map encodeFrame).flatten := by
    rw [hdata']
    exact List.drop_left' hlen8
  rw [htake, hdrop]
  have hsize : fromBeBytes (toBeBytes 8 p.length ++ List.replicate (8 - 8) 0) = p.length := by
    have : p.length < 256 ^ 8 := by
      calc p.length ≤ MAX_MESSAGE_SIZE := hp
        _ < 256 ^ 8 := by norm_num [MAX_MESSAGE_SIZE]
    simpa using fromBeBytes_toBeBytes 8 p.length this
  rw [hsize]
  have hmoved :
      min p.length (min (p ++ (rest.map encodeFrame).flatten).length MAX_MESSAGE_SIZE)
        = p.length := by
    have : p.length ≤ (p ++ (rest.map encodeFrame).flatten).length := by
      simp
    omega
  rw [hmoved]
  have htakep : (p ++ (rest.map encodeFrame).flatten).take p.length = p :=
    List.take_left' rfl
  have hdropp : (p ++ (rest.map encodeFrame).flatten).drop p.length =
      (rest.map encodeFrame).flatten :=
    List.drop_left' rfl
  rw [htakep, hdropp]

theorem drainLoop_wf (frames : List (List Nat)) :
    ∀ fuel ch, ch.wf frames → ch.data.length ≤ fuel →
      drainLoop fuel ch =
        ((drainedFrames frames).map frameMessage,
         { capacity := ch.capacity, data := residualData frames }) := by
  induction frames with
  | nil =>
    intro fuel ch h hf
    have hdat : ch.data = [] := h.1
    obtain ⟨cap, data⟩ := ch
    simp only at hdat
    subst hdat
    cases fuel with
    | zero => rfl
    | succ fuel => simp [drainLoop, drainedFrames, residualData]
  | cons p rest ih =>
    intro fuel ch h hf
    have hlen : ch.data.length = 8 + p.length + ((rest.map encodeFrame).flatten).length := by
      rw [h.1]
      simp [encodeFrame_length]
    cases fuel with
    | zero => omega
    | succ fuel =>
      cases rest with
      | nil =>
        by_cases hp : p.length = 0
        · -- a final zero-payload frame: the backlog is exactly 8 bytes and the
          -- `> 8` loop guard leaves it queued
          have hpnil : p = [] := List.length_eq_zero.mp hp
          subst hpnil
          have hdat : ch.data = encodeFrame [] := by
            simpa using h.1
          obtain ⟨cap, data⟩ := ch
          simp only at hdat
          subst hdat
          simp [drainLoop, drainedFrames, residualData, encodeFrame_length,
            List.length_append, toBeBytes_length]
        · have hcond : 8 < ch.data.length := by omega
          have hwfnil : Channel.wf [] { capacity := ch.capacity, data := ([] : List Nat) } :=
            ⟨rfl, by simp⟩
          have hrec := ih fuel { capacity := ch.capacity, data := ([] : List Nat) } hwfnil
            (by simp)
          rw [drainLoop, if_pos hcond]
          simp only [popMessage_wf ch p [] h, List.map_nil, List.flatten_nil]
          rw [hrec]
          simp [drainedFrames, residualData, frameMessage, hp]
      | cons q rs =>
        have hcond : 8 < ch.data.length := by
          have : 8 ≤ ((((q :: rs)).map encodeFrame).flatten).length := by
            simp [encodeFrame_length]
            omega
          omega
        have hwf' : Channel.wf (q :: rs)
            { capacity := ch.capacity, data := (((q :: rs)).map encodeFrame).flatten } :=
          ⟨rfl, fun x hx => h.2 x (List.mem_cons_of_mem _ hx)⟩
        have hlen' :
            ({ capacity := ch.capacity,
               data := (((q :: rs)).map encodeFrame).flatten } : Channel).data.length ≤ fuel := by
          simp only
          omega
        have hrec := ih fuel _ hwf' hlen'
        rw [drainLoop, if_pos hcond]
        simp only [popMessage_wf ch p (q :: rs) h]
        rw [hrec]
        simp [drainedFrames, residualData, frameMessage]

/-- `drainAll` on a backlog of complete frames dispatches every frame in FIFO
order (except a trailing zero-payload frame, which stays below the loop's
`> 8`-byte threshold) and leaves only that residue in the channel. -/
theorem drainAll_wf (frames : List (List Nat)) (ch : Channel) (h : ch.wf frames) :
    drainAll ch =
      ((drainedFrames frames).map frameMessage,
       { capacity := ch.capacity, data := residualData frames }) :=
  drainLoop_wf frames ch.data.length ch h le_rfl

/-- Popping once per queued frame returns exactly the queued payloads, in FIFO
order, and empties the channel. -/
theorem popN_wf (frames : List (List Nat)) :
    ∀ ch, ch.wf frames →
      popN frames.length ch =
        (frames.map frameMessage, { capacity := ch.capacity, data := [] }) := by
  induction frames with
  | nil =>
    intro ch h
    have hdat : ch.data = [] := h.1
    obtain ⟨cap, data⟩ := ch
    simp only at hdat
    subst hdat
    rfl
  | cons p rest ih =>
    intro ch h
    simp only [List.length_cons, popN, popMessage_wf ch p rest h]
    have hwf' : Channel.wf rest
        { capacity := ch.capacity, data := (rest.map encodeFrame).flatten } :=
      ⟨rfl, fun x hx => h.2 x (List.mem_cons_of_mem _ hx)⟩
    rw [ih _ hwf']
    simp [frameMessage]

theorem publishAll_wf (ps : List (List Nat)) :
    ∀ ch ch' frames, ch.wf frames → publishAll ch ps = some ch' →
      ch'.wf (frames ++ ps) := by
  induction ps with
  | nil =>
    intro ch ch' frames h hpub
    obtain rfl : ch = ch' := by simpa [publishAll] using hpub
    simpa using h
  | cons p ps ih =>
    intro ch ch' frames h hpub
    simp only [publishAll] at hpub
    split at hpub
    case _ st ch1 heq =>
      have hst : publishMessage ch p = (LV2WorkerStatus.success, ch1) := heq
      have h1 : ch1.wf (frames ++ [p]) := wf_publish_success ch ch1 frames p h hst
      have := ih ch1 ch' (frames ++ [p]) h1 hpub
      simpa [List.append_assoc] using this
    case _ => exact absurd hpub (by simp)

/-- Any channel reachable from the empty queue through `publish_message` calls
(regardless of their statuses) holds a backlog of complete frames, each with a
length prefix of at most `MAX_MESSAGE_SIZE`. -/
theorem applyPublishes_wf (ps : List (List Nat)) :
    ∀ ch frames, ch.wf frames →
      ∃ frames', (applyPublishes ch ps).wf frames' := by
  induction ps with
  | nil =>
    intro ch frames h
    exact ⟨frames, h⟩
  | cons p ps ih =>
    intro ch frames h
    rcases wf_publish_any ch frames p h with h' | h'
    · exact ih _ _ h'
    · exact ih _ _ h'

/-! ## Arithmetic and byte-slab helper lemmas for the atom sequence -/

theorem pow32_val : (2 : Nat) ^ 32 = 4294967296 := by norm_num

theorem pow31_val : (2 : Nat) ^ 31 = 2147483648 := by norm_num

theorem pow30_val : (2 : Nat) ^ 30 = 1073741824 := by norm_num

theorem u32_eq_of_lt {n : Nat} (h : n < 2 ^ 32) : u32 n = n := by
  have h' : n < 4294967296 := by rw [← pow32_val]; exact h
  exact Nat.mod_eq_of_lt h'

theorem padNat_ge (n : Nat) : n ≤ padNat n := by
  unfold padNat
  omega

theorem padNat_le (n : Nat) : padNat n ≤ n + 7 := by
  unfold padNat
  omega

theorem padNat_mod8 (n : Nat) : padNat n % 8 = 0 := by
  unfold padNat
  omega

theorem padNat_add16 (n : Nat) : padNat (16 + n) = 16 + padNat n := by
  unfold padNat
  omega

theorem padNat_eq_self {n : Nat} (h : n % 8 = 0) : padNat n = n := by
  unfold padNat
  omega

theorem lv2AtomPadSize_eq_padNat {n : Nat} (h : n + 7 < 2 ^ 32) :
    lv2AtomPadSize n = padNat n := by
  have h' : n + 7 < 4294967296 := by rw [← pow32_val]; exact h
  unfold lv2AtomPadSize u32 padNat
  rw [Nat.mod_eq_of_lt h']

theorem writeBytes_length {buf : List Nat} {off : Nat} {bs : List Nat}
    (h : off + bs.length ≤ buf.length) :
    (writeBytes buf off bs).length = buf.length := by
  simp only [writeBytes, List.length_append, List.length_take, List.length_drop]
  omega

theorem readBytes_writeBytes_self {buf : List Nat} {off : Nat} {bs : List Nat}
    (h : off + bs.length ≤ buf.length) :
    readBytes (writeBytes buf off bs) off bs.length = bs := by
  unfold readBytes writeBytes
  rw [List.append_assoc]
  have hlen : (buf.take off).length = off := by
    rw [List.length_take]
    omega
  rw [List.drop_left' hlen, List.take_left' rfl]

theorem readBytes_writeBytes_prev {buf : List Nat} {off : Nat} {bs : List Nat}
    {off' n : Nat} (h1 : off' + n ≤ off) (h2 : off ≤ buf.length) :
    readBytes (writeBytes buf off bs) off' n = readBytes buf off' n := by
  unfold readBytes writeBytes
  rw [List.append_assoc]
  have hlen : (buf.take off).length = off := by
    rw [List.length_take]
    omega
  rw [List.drop_append_of_le_length (by omega)]
  have hlen' : ((buf.take off).drop off').length = off - off' := by
    rw [List.length_drop, hlen]
  rw [List.take_append_of_le_length (by omega), List.drop_take, List.take_take]
  congr 1
  omega

theorem readBytes_take {buf : List Nat} {off a n : Nat} (h : n ≤ a) :
    (readBytes buf off a).take n = readBytes buf off n := by
  unfold readBytes
  rw [List.take_take]
  congr 1
  omega

theorem readBytes_drop (buf : List Nat) (off a k : Nat) :
    (readBytes buf off a).drop k = readBytes buf (off + k) (a - k) := by
  unfold readBytes
  rw [List.drop_take, List.drop_drop]

theorem decodeI64_encodeI64 {t : Int} (h1 : -(2 ^ 63) ≤ t) (h2 : t < 2 ^ 63) :
    decodeI64 (encodeI64 t) = t := by
  unfold decodeI64 encodeI64
  have h0 : (0 : Int) ≤ t % 2 ^ 64 := Int.emod_nonneg t (by norm_num)
  have hlt : t % 2 ^ 64 < 2 ^ 64 := Int.emod_lt_of_pos t (by norm_num)
  have hsize : (t % 2 ^ 64).toNat < 256 ^ 8 := by
    have h256 : (256 : Nat) ^ 8 = 2 ^ 64 := by norm_num
    rw [h256]
    omega
  rw [fromLeBytes_toLeBytes 8 _ hsize]
  by_cases hcase : (t % 2 ^ 64).toNat < 2 ^ 63
  · simp only [hcase, if_true]
    omega
  · simp only [hcase, if_false]
    omega

theorem encodeI64_length (t : Int) : (encodeI64 t).length = 8 :=
  toLeBytes_length _ _

theorem encodeEvent_length (t : Int) (ty : Nat) (p : List Nat) :
    (encodeEvent t ty p).length = 16 + p.length := by
  simp [encodeEvent, encodeI64_length, toLeBytes_length]
  omega

/-- Reading the frame of one event back out of the buffer, field by field:
the decoded time, payload size, type and payload bytes are the ones pushed. -/
theorem parseEventAt {buf : List Nat} {off : Nat} {t : Int} {ty : Nat}
    {p : List Nat}
    (hread : readBytes buf off (16 + p.length) = encodeEvent t ty p)
    (ht1 : -(2 ^ 63) ≤ t) (ht2 : t < 2 ^ 63) (hty : ty < 2 ^ 32)
    (hlen : p.length < 2 ^ 32) :
    decodeI64 (readBytes buf off 8) = t ∧
    fromLeBytes (readBytes buf (off + 8) 4) = p.length ∧
    fromLeBytes (readBytes buf (off + 12) 4) = ty ∧
    readBytes buf (off + 16) p.length = p := by
  have hlen256 : p.length < 256 ^ 4 := by
    have : (256 : Nat) ^ 4 = 2 ^ 32 := by norm_num
    omega
  have hty256 : ty < 256 ^ 4 := by
    have : (256 : Nat) ^ 4 = 2 ^ 32 := by norm_num
    omega
  have h8 : readBytes buf off 8 = encodeI64 t := by
    rw [← readBytes_take (by omega : 8 ≤ 16 + p.length), hread]
    exact List.take_left' (encodeI64_length t)
  have hdrop8 : readBytes buf (off + 8) (8 + p.length) =
      toLeBytes 4 p.length ++ toLeBytes 4 ty ++ p := by
    have hda := readBytes_drop buf off (16 + p.length) 8
    rw [hread] at hda
    have hd : (encodeEvent t ty p).drop 8 = toLeBytes 4 p.length ++ toLeBytes 4 ty ++ p := by
      unfold encodeEvent
      simp only [List.append_assoc]
      rw [List.drop_left' (encodeI64_length t)]
    rw [hd] at hda
    have harith : 16 + p.length - 8 = 8 + p.length := by omega
    rw [harith] at hda
    exact hda.symm
  have hsizebytes : readBytes buf (off + 8) 4 = toLeBytes 4 p.length := by
    rw [← readBytes_take (by omega : 4 ≤ 8 + p.length), hdrop8, List.append_assoc]
    exact List.take_left' (toLeBytes_length _ _)
  have hdrop12 : readBytes buf (off + 12) (4 + p.length) = toLeBytes 4 ty ++ p := by
    have hda := readBytes_drop buf (off + 8) (8 + p.length) 4
    rw [hdrop8] at hda
    have hd : ((toLeBytes 4 p.length ++ toLeBytes 4 ty ++ p)).drop 4 =
        toLeBytes 4 ty ++ p := by
      rw [List.append_assoc]
      exact List.drop_left' (toLeBytes_length _ _)
    rw [hd] at hda
    have harith : 8 + p.length - 4 = 4 + p.length := by omega
    have harith2 : off + 8 + 4 = off + 12 := by omega
    rw [harith, harith2] at hda
    exact hda.symm
  have htybytes : readBytes buf (off + 12) 4 = toLeBytes 4 ty := by
    rw [← readBytes_take (by omega : 4 ≤ 4 + p.length), hdrop12]
    exact List.take_left' (toLeBytes_length _ _)
  have hpayload : readBytes buf (off + 16) p.length = p := by
    have hda := readBytes_drop buf (off + 12) (4 + p.length) 4
    rw [hdrop12] at hda
    have hd : ((toLeBytes 4 ty ++ p)).drop 4 = p :=
      List.drop_left' (toLeBytes_length _ _)
    rw [hd] at hda
    have harith : 4 + p.length - 4 = p.length := by omega
    have harith2 : off + 12 + 4 = off + 16 := by omega
    rw [harith, harith2] at hda
    exact hda.symm
  refine ⟨?_, ?_, ?_, hpayload⟩
  · rw [h8]
    exact decodeI64_encodeI64 ht1 ht2
  · rw [hsizebytes]
    exact fromLeBytes_toLeBytes 4 _ hlen256
  · rw [htybytes]
    exact fromLeBytes_toLeBytes 4 _ hty256

/-! ## Layout of pushed events and the iterator -/

theorem framesSize_nil : framesSize [] = 0 := rfl

theorem framesSize_cons (e : Int × Nat × List Nat) (es : List (Int × Nat × List Nat)) :
    framesSize (e :: es) = padNat (16 + e.2.2.length) + framesSize es := by
  simp [framesSize]

theorem framesSize_append (es : List (Int × Nat × List Nat)) (e : Int × Nat × List Nat) :
    framesSize (es ++ [e]) = framesSize es + padNat (16 + e.2.2.length) := by
  simp [framesSize]

theorem length_le_framesSize (es : List (Int × Nat × List Nat)) :
    es.length ≤ framesSize es := by
  induction es with
  | nil => simp [framesSize]
  | cons e es ih =>
    rw [framesSize_cons]
    have h16 : 16 ≤ padNat (16 + e.2.2.length) :=
      le_trans (by omega) (padNat_ge _)
    simp only [List.length_cons]
    omega

theorem EventsLayout_append {buf : List Nat} {es : List (Int × Nat × List Nat)}
    {e : Int × Nat × List Nat} :
    ∀ {off : Nat},
      EventsLayout buf off (es ++ [e]) ↔
        (EventsLayout buf off es ∧
          readBytes buf (off + framesSize es) (16 + e.2.2.length) =
            encodeEvent e.1 e.2.1 e.2.2) := by
  induction es with
  | nil =>
    intro off
    simp [EventsLayout, framesSize]
  | cons f es ih =>
    intro off
    simp only [List.cons_append, EventsLayout, List.append_eq]
    rw [ih]
    constructor
    · rintro ⟨h1, h2, h3⟩
      refine ⟨⟨h1, h2⟩, ?_⟩
      rw [framesSize_cons, ← Nat.add_assoc]
      exact h3
    · rintro ⟨⟨h1, h2⟩, h3⟩
      refine ⟨h1, h2, ?_⟩
      rw [framesSize_cons, ← Nat.add_assoc] at h3
      exact h3

theorem EventsLayout_writeBytes {buf : List Nat} {bs : List Nat} {wOff : Nat}
    (h2 : wOff ≤ buf.length) :
    ∀ es off, EventsLayout buf off es → off + framesSize es ≤ wOff →
      EventsLayout (writeBytes buf wOff bs) off es := by
  intro es
  induction es with
  | nil =>
    intro off _ _
    trivial
  | cons e es ih =>
    intro off hlay hle
    obtain ⟨hread, hrest⟩ := hlay
    rw [framesSize_cons] at hle
    have h16 : 16 + e.2.2.length ≤ padNat (16 + e.2.2.length) := padNat_ge _
    refine ⟨?_, ih _ hrest (by omega)⟩
    rw [readBytes_writeBytes_prev (by omega) h2]
    exact hread

/-- Parsing the buffer from `off` with the iterator loop recovers exactly the
events laid out there, provided `atom.size` accounts for exactly their padded
frames. -/
theorem iterLoop_layout (es : List (Int × Nat × List Nat)) :
    ∀ fuel buf size off,
      EventsLayout buf off es →
      8 + size = off + framesSize es →
      (∀ e ∈ es, GoodEvent e) →
      es.length ≤ fuel →
      iterLoop fuel buf size off = es := by
  induction es with
  | nil =>
    intro fuel buf size off _ hsize _ _
    rw [framesSize_nil] at hsize
    cases fuel with
    | zero => rfl
    | succ fuel =>
      rw [iterLoop, if_pos (by omega)]
  | cons e es ih =>
    intro fuel buf size off hlay hsize hg hfuel
    obtain ⟨t, ty, p⟩ := e
    obtain ⟨hread, hrest⟩ := hlay
    obtain ⟨ht1, ht2, hty, hp30⟩ := hg _ (List.mem_cons_self _ _)
    simp only at ht1 ht2 hty hp30 hread hrest
    have p30 := pow30_val
    have p32 := pow32_val
    have hplen : p.length < 2 ^ 32 := by omega
    cases fuel with
    | zero => simp at hfuel
    | succ fuel =>
      rw [framesSize_cons] at hsize
      simp only at hsize
      have h16 : 16 ≤ padNat (16 + p.length) := le_trans (by omega) (padNat_ge _)
      obtain ⟨hT, hS, hTy, hP⟩ := parseEventAt hread ht1 ht2 hty hplen
      rw [iterLoop, if_neg (by omega)]
      simp only [hT, hS, hTy, hP]
      have hpad : lv2AtomPadSize p.length = padNat p.length :=
        lv2AtomPadSize_eq_padNat (by omega)
      rw [hpad]
      have hoff : off + 16 + padNat p.length = off + padNat (16 + p.length) := by
        rw [padNat_add16]
        omega
      rw [hoff]
      rw [ih fuel buf size _ hrest (by omega)
        (fun x hx => hg x (List.mem_cons_of_mem _ hx))
        (by simp only [List.length_cons] at hfuel; omega)]

/-- `push_event` fully characterized (away from u32 wrap-around): it fails
with `SequenceFull` exactly when the capacity is below the current size plus
the *unpadded* frame (header + payload), and otherwise writes the frame at
the end of the used region and grows `atom.size` by the *padded* frame. -/
theorem pushEvent_eq (s : LV2AtomSequence) (time : Int) (ty : Nat)
    (payload : List Nat) (hInv : SeqInv s) (hp : 16 + payload.length ≤ 2 ^ 30) :
    s.pushEvent time ty payload =
      if s.capacity < s.size + (16 + payload.length) then
        Except.error (EventError.sequenceFull s.capacity
          (s.size + (16 + payload.length)))
      else
        Except.ok { atomSize := s.atomSize + padNat (16 + payload.length),
                    buffer := writeBytes s.buffer (8 + s.atomSize)
                      (encodeEvent time ty payload) } := by
  obtain ⟨h8, hge, hcap7, hmin, hcap30⟩ := hInv
  have p30 := pow30_val
  have p32 := pow32_val
  have e1 : u32 (16 + payload.length) = 16 + payload.length :=
    u32_eq_of_lt (by omega)
  have e2 : u32 s.capacity = s.capacity := u32_eq_of_lt (by omega)
  have e3 : u32 (8 + s.atomSize) = 8 + s.atomSize := u32_eq_of_lt (by omega)
  have e4 : u32 (8 + s.atomSize + (16 + payload.length)) =
      8 + s.atomSize + (16 + payload.length) := u32_eq_of_lt (by omega)
  have e5 : lv2AtomPadSize (16 + payload.length) = padNat (16 + payload.length) :=
    lv2AtomPadSize_eq_padNat (by omega)
  have e6 : lv2AtomPadSize s.atomSize = s.atomSize := by
    rw [lv2AtomPadSize_eq_padNat (by omega)]
    exact padNat_eq_self h8
  simp only [LV2AtomSequence.pushEvent, LV2AtomSequence.size, e1, e2, e3, e4, e5, e6]
  split_ifs with hcond
  · rfl
  · have e7 : u32 (s.atomSize + padNat (16 + payload.length)) =
        s.atomSize + padNat (16 + payload.length) := by
      have := padNat_le (16 + payload.length)
      exact u32_eq_of_lt (by omega)
    have e8 : (encodeEvent time ty payload).take (16 + payload.length) =
        encodeEvent time ty payload := by
      conv_lhs => rw [← encodeEvent_length time ty payload]
      exact List.take_length _
    rw [e7, e8]

/-- A successful `push_event` extends the pushed-state invariant by the new
event. -/
theorem pushEvent_state {cap : Nat} {events : List (Int × Nat × List Nat)}
    {s : LV2AtomSequence} (h : PushedState cap events s) {t : Int} {ty : Nat}
    {p : List Nat} (hp : 16 + p.length ≤ 2 ^ 30) {s' : LV2AtomSequence}
    (hok : s.pushEvent t ty p = Except.ok s') :
    PushedState cap (events ++ [(t, ty, p)]) s' := by
  obtain ⟨hinv, hcap, hsize, hlay⟩ := h
  have hinv' := hinv
  obtain ⟨h8, hge, hcap7, hmin, hcap30⟩ := hinv'
  rw [pushEvent_eq s t ty p hinv hp] at hok
  by_cases hcond : s.capacity < s.size + (16 + p.length)
  · rw [if_pos hcond] at hok
    exact absurd hok (by simp)
  · rw [if_neg hcond] at hok
    obtain rfl := Except.ok.inj hok
    simp only [LV2AtomSequence.size, LV2AtomSequence.capacity, not_lt] at hcond
    have hbound : 8 + s.atomSize + (16 + p.length) ≤ s.buffer.length := hcond
    have hpadle := padNat_le (16 + p.length)
    have hpadge := padNat_ge (16 + p.length)
    have hwlen : (writeBytes s.buffer (8 + s.atomSize) (encodeEvent t ty p)).length =
        s.buffer.length :=
      writeBytes_length (by rw [encodeEvent_length]; omega)
    have hcap' : LV2AtomSequence.capacity
        { atomSize := s.atomSize + padNat (16 + p.length),
          buffer := writeBytes s.buffer (8 + s.atomSize) (encodeEvent t ty p) } =
        s.buffer.length := hwlen
    refine ⟨⟨?_, ?_, ?_, ?_, ?_⟩, ?_, ?_, ?_⟩
    · have := padNat_mod8 (16 + p.length)
      simp only
      omega
    · simp only
      omega
    · simp only [LV2AtomSequence.capacity] at hcap7 ⊢
      rw [hwlen]
      omega
    · simp only [LV2AtomSequence.capacity] at hmin ⊢
      rw [hwlen]
      exact hmin
    · simp only [LV2AtomSequence.capacity] at hcap30 ⊢
      rw [hwlen]
      exact hcap30
    · simp only [LV2AtomSequence.capacity] at hcap ⊢
      rw [hwlen]
      exact hcap
    · simp [framesSize_append, hsize]
      omega
    · simp only
      rw [EventsLayout_append]
      have hlaybound : 16 + framesSize events ≤ 8 + s.atomSize := by omega
      refine ⟨EventsLayout_writeBytes (by omega) events 16 hlay hlaybound, ?_⟩
      have hoffeq : 16 + framesSize events = 8 + s.atomSize := by omega
      rw [hoffeq]
      have := @readBytes_writeBytes_self s.buffer (8 + s.atomSize)
        (encodeEvent t ty p) (by rw [encodeEvent_length]; omega)
      rw [encodeEvent_length] at this
      exact this

/-- Pushing a list of events, all successfully, extends the pushed-state
invariant by all of them. -/
theorem pushAll_state (evs : List (Int × Nat × List Nat)) :
    ∀ {s : LV2AtomSequence} {cap : Nat} {acc : List (Int × Nat × List Nat)},
      PushedState cap acc s →
      (∀ e ∈ evs, 16 + e.2.2.length ≤ 2 ^ 30) →
      ∀ {s' : LV2AtomSequence}, pushAll s evs = Except.ok s' →
        PushedState cap (acc ++ evs) s' := by
  induction evs with
  | nil =>
    intro s cap acc h _ s' hok
    simp only [pushAll] at hok
    obtain rfl := Except.ok.inj hok
    simpa using h
  | cons e es ih =>
    obtain ⟨t, ty, p⟩ := e
    intro s cap acc h hb s' hok
    simp only [pushAll] at hok
    cases hpe : s.pushEvent t ty p with
    | error err =>
      rw [hpe] at hok
      exact absurd hok (by simp)
    | ok s1 =>
      rw [hpe] at hok
      have h1 : PushedState cap (acc ++ [(t, ty, p)]) s1 :=
        pushEvent_state h (by simpa using hb (t, ty, p) (List.mem_cons_self _ _)) hpe
      have h2 := ih h1 (fun x hx => hb x (List.mem_cons_of_mem _ hx)) hok
      simpa [List.append_assoc] using h2

/-- The fresh sequence of requested capacity `cap` is in the pushed state for
no events, with actual capacity `max cap 16`. -/
theorem newState (cap : Nat) (hcap : cap ≤ 2 ^ 30) :
    PushedState (max cap 16) [] (LV2AtomSequence.new cap) := by
  have p30 := pow30_val
  refine ⟨⟨?_, ?_, ?_, ?_, ?_⟩, ?_, ?_, trivial⟩ <;>
    simp only [LV2AtomSequence.new, LV2AtomSequence.clear, LV2AtomSequence.capacity,
      MINIMUM_ATOM_SEQUENCE_SIZE, framesSize, List.length_replicate, List.map_nil,
      List.sum_nil]
  all_goals omega

/-! ## Claim theorems for the worker channel (C1, C3, C7, C8, C10) -/

/-- C1 counterexample: the status for an oversized payload (8193 bytes, above
`MAX_MESSAGE_SIZE = 8192`, sent into a fresh queue with ample free capacity)
is `LV2_WORKER_ERR_NO_SPACE`, the very same status returned when a completely
full channel lacks capacity for a 1-byte message — the two failure cases are
not distinguished, contradicting the claim. -/
theorem c1_status_counterexample :
    MAX_MESSAGE_SIZE < (List.replicate 8193 (0 : Nat)).length ∧
    (publishMessage instantiateQueue (List.replicate 8193 0)).1 =
      LV2WorkerStatus.errNoSpace ∧
    ({ capacity := 16, data := [0, 0, 0, 0, 0, 0, 0, 0, 0, 0, 0, 0, 0, 0, 0, 0] } :
        Channel).freeLen < 8 + [(1 : Nat)].length ∧
    (publishMessage
        { capacity := 16, data := [0, 0, 0, 0, 0, 0, 0, 0, 0, 0, 0, 0, 0, 0, 0, 0] }
        [1]).1 = LV2WorkerStatus.errNoSpace := by
  have hbig : ¬((List.replicate 8193 (0 : Nat)).length ≤ MAX_MESSAGE_SIZE ∧
      8 + (List.replicate 8193 (0 : Nat)).length ≤ instantiateQueue.freeLen) := by
    rw [List.length_replicate]
    rintro ⟨h1, -⟩
    norm_num [MAX_MESSAGE_SIZE] at h1
  refine ⟨?_, ?_, by decide, by decide⟩
  · rw [List.length_replicate]
    norm_num [MAX_MESSAGE_SIZE]
  · rw [publishMessage_eq, if_neg hbig]

/-- C1 (amended): `publish_message` returns `LV2_WORKER_SUCCESS` exactly when
the payload is within `MAX_MESSAGE_SIZE` and the ring's free capacity holds
the 8-byte prefix plus the payload; *both* failure cases — oversized payload
and exhausted capacity — return the same `LV2_WORKER_ERR_NO_SPACE` status, so
only success and failure are distinguished (and `LV2_WORKER_ERR_UNKNOWN` is
never returned). -/
theorem c1_publish_status_amended (ch : Channel) (body : List Nat) :
    (publishMessage ch body).1 =
      if body.length ≤ MAX_MESSAGE_SIZE ∧ 8 + body.length ≤ ch.freeLen then
        LV2WorkerStatus.success
      else
        LV2WorkerStatus.errNoSpace := by
  rw [publishMessage_eq]
  split_ifs <;> rfl

/-- C3 counterexample: a zero-length payload is accepted by `publish_message`
and occupies a complete 8-byte frame in the backlog, yet the drain loop
(`while receiver.len() > size_of::<usize>()`) dispatches nothing and leaves
the channel unchanged — contradicting the claim that a full frame with a
zero-length payload (backlog exactly 8 bytes) is popped. -/
theorem c3_drain_counterexample :
    (publishMessage instantiateQueue []).1 = LV2WorkerStatus.success ∧
    ((publishMessage instantiateQueue []).2).data.length = 8 ∧
    drainAll ((publishMessage instantiateQueue []).2) =
      ([], (publishMessage instantiateQueue []).2) := by
  decide

/-- C3 (amended): on a backlog made of complete frames, the drain loops of
`Worker::do_work` and `handle_work_responses` pop and dispatch messages in
FIFO order while strictly more than 8 bytes (one length prefix) remain; every
dispatched message is a complete queued frame with its declared size and
payload, and the only frame that can remain undispatched is a trailing
zero-length-payload frame, whose 8-byte backlog does not exceed the loop
threshold. -/
theorem c3_drain_amended (frames : List (List Nat)) (ch : Channel)
    (h : ch.wf frames) :
    (drainAll ch).1 = (drainedFrames frames).map frameMessage ∧
    (drainAll ch).2 = { capacity := ch.capacity, data := residualData frames } := by
  rw [drainAll_wf frames ch h]
  exact ⟨rfl, rfl⟩

/-- Witness for `c3_drain_amended` at a concrete backlog of a 1-byte frame
followed by a zero-length frame. -/
theorem c3_drain_amended_witness :
    (drainAll { capacity := 32768, data := encodeFrame [5] ++ encodeFrame [] }).1 =
      (drainedFrames [[5], []]).map frameMessage ∧
    (drainAll { capacity := 32768, data := encodeFrame [5] ++ encodeFrame [] }).2 =
      { capacity := 32768, data := residualData [[5], []] } :=
  c3_drain_amended [[5], []] _ (by constructor <;> simp [encodeFrame, MAX_MESSAGE_SIZE])

/-- C7: payloads accepted by `publish_message` come back out of `pop_message`
byte-for-byte, with the same length, in FIFO publish order: publishing a list
of payloads into the fresh queue (all succeeding) and then popping once per
message yields exactly the original payloads. -/
theorem c7_channel_roundtrip (ps : List (List Nat)) (ch : Channel)
    (h : publishAll instantiateQueue ps = some ch) :
    (popN ps.length ch).1.map (fun m => (m.size, m.body.take m.size)) =
      ps.map fun p => (p.length, p) := by
  have hwf0 : instantiateQueue.wf [] := ⟨rfl, by simp⟩
  have hwf : ch.wf ps := by
    simpa using publishAll_wf ps instantiateQueue ch [] hwf0 h
  rw [popN_wf ps ch hwf]
  simp only [List.map_map]
  refine List.map_congr_left fun p _ => ?_
  simp only [Function.comp_apply, frameMessage]
  exact congrArg _ (List.take_left' rfl)

/-- Witness for `c7_channel_roundtrip`: two concrete payloads published into
the fresh queue are popped back identically and in order. -/
theorem c7_channel_roundtrip_witness :
    publishAll instantiateQueue [[1, 2, 3], [4]] =
      some { capacity := 32768,
             data := [0, 0, 0, 0, 0, 0, 0, 3, 1, 2, 3, 0, 0, 0, 0, 0, 0, 0, 1, 4] } ∧
    (popN 2 { capacity := 32768,
              data := [0, 0, 0, 0, 0, 0, 0, 3, 1, 2, 3, 0, 0, 0, 0, 0, 0, 0, 1, 4] }).1.map
        (fun m => (m.size, m.body.take m.size)) =
      [(3, [1, 2, 3]), (1, [4])] := by
  have h : publishAll instantiateQueue [[1, 2, 3], [4]] =
      some { capacity := 32768,
             data := [0, 0, 0, 0, 0, 0, 0, 3, 1, 2, 3, 0, 0, 0, 0, 0, 0, 0, 1, 4] } := by
    decide
  refine ⟨h, ?_⟩
  have := c7_channel_roundtrip [[1, 2, 3], [4]] _ h
  simpa using this

/-- C8 counterexample: for an oversized payload (8193 bytes) the fresh queue's
free capacity (32768) exceeds the full frame size (8201), yet `publish_message`
fails and writes nothing — refuting the claimed "write happens if and only if
free capacity is at least the full frame size". -/
theorem c8_write_iff_counterexample :
    8 + (List.replicate 8193 (0 : Nat)).length ≤ instantiateQueue.freeLen ∧
    (publishMessage instantiateQueue (List.replicate 8193 0)).2 = instantiateQueue ∧
    (publishMessage instantiateQueue (List.replicate 8193 0)).1 ≠
      LV2WorkerStatus.success := by
  have hbig : ¬((List.replicate 8193 (0 : Nat)).length ≤ MAX_MESSAGE_SIZE ∧
      8 + (List.replicate 8193 (0 : Nat)).length ≤ instantiateQueue.freeLen) := by
    rw [List.length_replicate]
    rintro ⟨h1, -⟩
    norm_num [MAX_MESSAGE_SIZE] at h1
  refine ⟨?_, ?_, ?_⟩
  · rw [List.length_replicate]
    norm_num [instantiateQueue, Channel.freeLen, MAX_MESSAGE_SIZE, N_MESSAGES]
  · rw [publishMessage_eq, if_neg hbig]
  · rw [publishMessage_eq, if_neg hbig]
    simp

/-- C8 (amended): `publish_message` writes into the ring if and only if the
payload is within `MAX_MESSAGE_SIZE` *and* free capacity covers the length
prefix plus the payload; on success exactly the complete frame is appended
after the existing bytes, and on any failure status the channel contents are
completely unchanged — no partial frame, no corruption of queued frames. -/
theorem c8_write_iff_amended (ch : Channel) (body : List Nat) :
    (publishMessage ch body).2 =
      if body.length ≤ MAX_MESSAGE_SIZE ∧ 8 + body.length ≤ ch.freeLen then
        { capacity := ch.capacity, data := ch.data ++ encodeFrame body }
      else
        ch := by
  rw [publishMessage_eq]
  split_ifs <;> rfl

/-- C10: any channel reachable from the fresh queue through `publish_message`
calls alone has a backlog of complete frames in which every length prefix
decodes to at most `MAX_MESSAGE_SIZE = 8192` — so `pop_message`'s fixed
8192-byte destination buffer always suffices and the front message is popped
untruncated, its declared size and payload intact. -/
theorem c10_prefix_bounded (ps : List (List Nat)) :
    ∃ frames, (applyPublishes instantiateQueue ps).wf frames ∧
      (∀ f ∈ frames, f.length ≤ MAX_MESSAGE_SIZE) ∧
      ∀ f fs, frames = f :: fs →
        (popMessage (applyPublishes instantiateQueue ps)).1.size = f.length ∧
        (popMessage (applyPublishes instantiateQueue ps)).1.size ≤ MAX_MESSAGE_SIZE ∧
        (popMessage (applyPublishes instantiateQueue ps)).1.body.take
            ((popMessage (applyPublishes instantiateQueue ps)).1.size) = f := by
  have hwf0 : instantiateQueue.wf [] := ⟨rfl, by simp⟩
  obtain ⟨frames, hwf⟩ := applyPublishes_wf ps instantiateQueue [] hwf0
  refine ⟨frames, hwf, hwf.2, ?_⟩
  rintro f fs rfl
  rw [popMessage_wf _ f fs hwf]
  exact ⟨rfl, hwf.2 f (List.mem_cons_self _ _), List.take_left' rfl⟩

/-! ## Claim theorems for the atom sequence (C2, C5, C6) -/

/-- C2 counterexample: on a sequence of capacity 33, pushing a single 1-byte
payload succeeds (the capacity check uses the *unpadded* frame size
16 + 1 = 17 and 16 + 17 = 33 ≤ 33), yet `atom.size` grows by the *padded*
frame (24), so the used size becomes 40 > 33 — the used size exceeds the
capacity, and the push whose padded frame would exceed the capacity did not
fail. -/
theorem c2_capacity_counterexample :
    ((LV2AtomSequence.new 33).pushEvent 0 0 [42]).map LV2AtomSequence.size =
      Except.ok 40 ∧
    ((LV2AtomSequence.new 33).pushEvent 0 0 [42]).map LV2AtomSequence.capacity =
      Except.ok 33 ∧
    33 < 40 := by
  refine ⟨rfl, rfl, by norm_num⟩

/-- C2 (amended): under the sequence invariant, `push_event` fails (with
`SequenceFull` reporting the capacity and the unpadded requested size) exactly
when the capacity is below the used size plus the *unpadded* frame
(header + payload, not rounded up to 8); a successful push grows the used
size by the padded frame, and the used size can exceed the capacity by at
most the 7 bytes of final-frame padding (`size ≤ capacity + 7`) — while a
failing push leaves the sequence unchanged, as the error path returns before
any mutation. -/
theorem c2_push_capacity_amended (s : LV2AtomSequence) (time : Int) (ty : Nat)
    (payload : List Nat) (hInv : SeqInv s)
    (hp : 16 + payload.length ≤ 2 ^ 30) :
    ((∃ err, s.pushEvent time ty payload = Except.error err) ↔
      s.capacity < s.size + (16 + payload.length)) ∧
    (s.pushEvent time ty payload =
        if s.capacity < s.size + (16 + payload.length) then
          Except.error (EventError.sequenceFull s.capacity
            (s.size + (16 + payload.length)))
        else
          Except.ok { atomSize := s.atomSize + padNat (16 + payload.length),
                      buffer := writeBytes s.buffer (8 + s.atomSize)
                        (encodeEvent time ty payload) }) ∧
    ∀ s', s.pushEvent time ty payload = Except.ok s' →
      s'.size = s.size + padNat (16 + payload.length) ∧
      s'.size ≤ s.capacity + 7 ∧ s'.capacity = s.capacity := by
  have heq := pushEvent_eq s time ty payload hInv hp
  obtain ⟨h8, hge, hcap7, hmin, hcap30⟩ := hInv
  refine ⟨?_, heq, ?_⟩
  · constructor
    · rintro ⟨err, herr⟩
      by_contra hlt
      rw [heq, if_neg hlt] at herr
      exact absurd herr (by simp)
    · intro hlt
      exact ⟨_, by rw [heq, if_pos hlt]⟩
  · intro s' hok
    rw [heq] at hok
    by_cases hcond : s.capacity < s.size + (16 + payload.length)
    · rw [if_pos hcond] at hok
      exact absurd hok (by simp)
    · rw [if_neg hcond] at hok
      obtain rfl := Except.ok.inj hok
      have hple := padNat_le (16 + payload.length)
      simp only [LV2AtomSequence.size, LV2AtomSequence.capacity, not_lt] at hcond ⊢
      have hwlen : (writeBytes s.buffer (8 + s.atomSize)
          (encodeEvent time ty payload)).length = s.buffer.length :=
        writeBytes_length (by rw [encodeEvent_length]; omega)
      rw [hwlen]
      simp only [LV2AtomSequence.capacity] at hcap7
      omega

/-- Witness for `c2_push_capacity_amended` on a concrete sequence: capacity
33, a 1-byte payload. -/
theorem c2_push_capacity_amended_witness :
    ((∃ err, (LV2AtomSequence.new 33).pushEvent 0 0 [42] = Except.error err) ↔
      (LV2AtomSequence.new 33).capacity <
        (LV2AtomSequence.new 33).size + (16 + [(42 : Nat)].length)) ∧
    ((LV2AtomSequence.new 33).pushEvent 0 0 [42] =
        if (LV2AtomSequence.new 33).capacity <
            (LV2AtomSequence.new 33).size + (16 + [(42 : Nat)].length) then
          Except.error (EventError.sequenceFull (LV2AtomSequence.new 33).capacity
            ((LV2AtomSequence.new 33).size + (16 + [(42 : Nat)].length)))
        else
          Except.ok
            { atomSize := (LV2AtomSequence.new 33).atomSize +
                padNat (16 + [(42 : Nat)].length),
              buffer := writeBytes (LV2AtomSequence.new 33).buffer
                (8 + (LV2AtomSequence.new 33).atomSize) (encodeEvent 0 0 [42]) }) ∧
    ∀ s', (LV2AtomSequence.new 33).pushEvent 0 0 [42] = Except.ok s' →
      s'.size = (LV2AtomSequence.new 33).size + padNat (16 + [(42 : Nat)].length) ∧
      s'.size ≤ (LV2AtomSequence.new 33).capacity + 7 ∧
      s'.capacity = (LV2AtomSequence.new 33).capacity :=
  c2_push_capacity_amended (LV2AtomSequence.new 33) 0 0 [42]
    (by unfold SeqInv LV2AtomSequence.new LV2AtomSequence.clear LV2AtomSequence.capacity
          MINIMUM_ATOM_SEQUENCE_SIZE
        norm_num)
    (by norm_num)

/-- C5: after successfully pushing `N` events of payload sizes `s_1..s_n`
into a fresh sequence, the used size equals the 16-byte sequence header plus
the sum over `i` of `round_up_8(16 + s_i)`, 16 being the size of the
per-event header (`LV2AtomEvent`). -/
theorem c5_padding_invariant (cap : Nat) (events : List (Int × Nat × List Nat))
    (s' : LV2AtomSequence) (hcap : cap ≤ 2 ^ 30)
    (hev : ∀ e ∈ events, 16 + e.2.2.length ≤ 2 ^ 30)
    (h : pushAll (LV2AtomSequence.new cap) events = Except.ok s') :
    s'.size = 16 + (events.map fun e => padNat (16 + e.2.2.length)).sum := by
  have hst := pushAll_state events (newState cap hcap) hev h
  simp only [List.nil_append] at hst
  obtain ⟨-, -, hsize, -⟩ := hst
  simp only [LV2AtomSequence.size, hsize, framesSize]
  omega

/-- Witness for `c5_padding_invariant`: one 1-byte event in a 40-byte
sequence gives used size 16 + 24 = 40. -/
theorem c5_padding_invariant_witness :
    ∃ s', pushAll (LV2AtomSequence.new 40) [((0 : Int), (0 : Nat), [(1 : Nat)])] =
        Except.ok s' ∧
      s'.size =
        16 + (([((0 : Int), (0 : Nat), [(1 : Nat)])].map
          fun e => padNat (16 + e.2.2.length)).sum) := by
  refine ⟨_, rfl, ?_⟩
  exact c5_padding_invariant 40 _ _ (by norm_num)
    (by intro e he; simp at he; subst he; norm_num) rfl

/-- C6: pushing a list of `(time, type, payload)` events into a fresh
sequence (all pushes succeeding) and then iterating yields exactly the same
triples in the same order; in particular a freshly created (cleared) sequence
iterates to nothing (the case of no events). -/
theorem c6_roundtrip (cap : Nat) (events : List (Int × Nat × List Nat))
    (s' : LV2AtomSequence) (hcap : cap ≤ 2 ^ 30)
    (hg : ∀ e ∈ events, GoodEvent e)
    (h : pushAll (LV2AtomSequence.new cap) events = Except.ok s') :
    s'.iterEvents = events := by
  have hst := pushAll_state events (newState cap hcap)
    (fun e he => (hg e he).2.2.2) h
  simp only [List.nil_append] at hst
  obtain ⟨⟨h8, hge, hcap7, hmin, hcap30⟩, hcapeq, hsize, hlay⟩ := hst
  unfold LV2AtomSequence.iterEvents
  apply iterLoop_layout events (s'.atomSize + 1) s'.buffer s'.atomSize 16 hlay
  · rw [hsize]
    simp only [framesSize]
    omega
  · exact hg
  · have hlen := length_le_framesSize events
    rw [hsize]
    simp only [framesSize] at hlen ⊢
    omega

/-- Witness for `c6_roundtrip`: two events (one with a negative timestamp and
an empty payload) pushed into a 64-byte sequence iterate back identically. -/
theorem c6_roundtrip_witness :
    ∃ s', pushAll (LV2AtomSequence.new 64)
        [((0 : Int), (5 : Nat), [(1 : Nat)]), ((-1 : Int), (2 : Nat), ([] : List Nat))] =
        Except.ok s' ∧
      s'.iterEvents =
        [((0 : Int), (5 : Nat), [(1 : Nat)]), ((-1 : Int), (2 : Nat), ([] : List Nat))] := by
  refine ⟨_, rfl, ?_⟩
  exact c6_roundtrip 64 _ _ (by norm_num)
    (by intro e he
        simp [GoodEvent] at he ⊢
        rcases he with he | he <;> subst he <;> norm_num [GoodEvent]) rfl

/-- Witness for `c10_prefix_bounded` at a concrete publish sequence (one
accepted 2-byte message, one accepted 1-byte message). -/
theorem c10_prefix_bounded_witness :
    ∃ frames, (applyPublishes instantiateQueue [[1, 2], [3]]).wf frames ∧
      (∀ f ∈ frames, f.length ≤ MAX_MESSAGE_SIZE) ∧
      ∀ f fs, frames = f :: fs →
        (popMessage (applyPublishes instantiateQueue [[1, 2], [3]])).1.size = f.length ∧
        (popMessage (applyPublishes instantiateQueue [[1, 2], [3]])).1.size ≤
          MAX_MESSAGE_SIZE ∧
        (popMessage (applyPublishes instantiateQueue [[1, 2], [3]])).1.body.take
            ((popMessage (applyPublishes instantiateQueue [[1, 2], [3]])).1.size) = f :=
  c10_prefix_bounded [[1, 2], [3]]

/-! ## Claim theorems for the worker lifecycle and `Instance::run` (C9, C4) -/

/-- C9: once a Worker's liveness flag is false (as `Drop for Instance` makes
it), `do_work` does nothing — it neither changes the worker's channels nor
invokes the plugin's work function on any message — and after one complete
`run_workers` pass every worker left in the manager (running or incoming) has
a true liveness flag, so the retired worker is gone from the active set. -/
theorem c9_worker_retirement (wfn : WorkerMessage → List (List Nat))
    (w : Worker) (m : WorkerManager) :
    (Worker.retire w).pluginAlive = false ∧
    Worker.doWork wfn (Worker.retire w) = (Worker.retire w, []) ∧
    (∀ w' ∈ ((WorkerManager.runWorkers wfn m).1).runningWorkers,
      w'.pluginAlive = true) ∧
    ((WorkerManager.runWorkers wfn m).1).newWorkers = [] := by
  refine ⟨rfl, ?_, ?_, rfl⟩
  · rw [Worker.doWork, if_neg (by simp [Worker.retire])]
  · intro w' hw'
    simp only [WorkerManager.runWorkers] at hw'
    have := List.of_mem_filter hw'
    simpa [Worker.shouldKeepWorking] using this

/-- Witness for `c9_worker_retirement` on a concrete retired worker and a
manager holding one live and one retired worker. -/
theorem c9_worker_retirement_witness :
    (Worker.retire ⟨true, true, instantiateQueue, instantiateQueue⟩).pluginAlive
      = false ∧
    Worker.doWork (fun _ => [])
        (Worker.retire ⟨true, true, instantiateQueue, instantiateQueue⟩) =
      (Worker.retire ⟨true, true, instantiateQueue, instantiateQueue⟩, []) ∧
    (∀ w' ∈ ((WorkerManager.runWorkers (fun _ => [])
        ⟨[⟨false, true, instantiateQueue, instantiateQueue⟩],
         [⟨true, true, instantiateQueue, instantiateQueue⟩]⟩).1).runningWorkers,
      w'.pluginAlive = true) ∧
    ((WorkerManager.runWorkers (fun _ => [])
        ⟨[⟨false, true, instantiateQueue, instantiateQueue⟩],
         [⟨true, true, instantiateQueue, instantiateQueue⟩]⟩).1).newWorkers = [] :=
  c9_worker_retirement (fun _ => []) ⟨true, true, instantiateQueue, instantiateQueue⟩
    ⟨[⟨false, true, instantiateQueue, instantiateQueue⟩],
     [⟨true, true, instantiateQueue, instantiateQueue⟩]⟩

/-- C4 counterexample: an instance with a worker interface and one buffered
response runs its plugin process function *first* and only then delivers the
buffered response (followed by `end_run`) — the response is not delivered
before the process call of that run, contradicting the claim's ordering. -/
theorem c4_order_counterexample :
    (instanceRun
        { minBlockSize := 1, maxBlockSize := 256,
          audioInputsCount := 0, audioOutputsCount := 0,
          atomSequenceInputsCount := 0, atomSequenceOutputsCount := 0,
          cvInputsCount := 0, cvOutputsCount := 0,
          workerInterface := some { hasWorkResponse := true, hasEndRun := true },
          workerToInstanceReceiver :=
            (publishMessage { capacity := 32768, data := [] } [7]).2 }
        16
        { audioInputs := [], audioOutputs := [],
          atomSequenceInputsCount := 0, atomSequenceOutputsCount := 0,
          cvInputsCount := 0, cvOutputsCount := 0 }).map
      (fun r => r.2.map RunAction.kind) =
      Except.ok [RunActionKind.process, RunActionKind.workResponse,
        RunActionKind.endRun] := by
  rfl

/-- C4 (amended): for every *successful* `Instance::run` call on an instance
whose worker interface provides `end_run`, the observable call order is: the
plugin's process function first, then all buffered work responses, then
`end_run` exactly once, last.  Responses buffered between calls are thus
delivered after the process call of the run that drains them — i.e. before
the *next* call's processing, not before this call's. -/
theorem c4_run_order_amended (inst : Instance) (samples : Nat)
    (ports : PortConnections) (inst' : Instance) (trace : List RunAction)
    (wr : Bool)
    (hw : inst.workerInterface = some { hasWorkResponse := wr, hasEndRun := true })
    (h : instanceRun inst samples ports = Except.ok (inst', trace)) :
    ∃ resps, trace = RunAction.process samples :: resps ++ [RunAction.endRun] ∧
      (∀ a ∈ resps, RunAction.kind a = RunActionKind.workResponse) ∧
      trace.count RunAction.endRun = 1 := by
  unfold instanceRun at h
  cases hv : validateRun inst samples ports with
  | error e =>
    rw [hv] at h
    exact absurd h (by simp)
  | ok u =>
    rw [hv, hw] at h
    simp only [Except.ok.injEq, Prod.mk.injEq] at h
    obtain ⟨-, htrace⟩ := h
    refine ⟨if wr then (drainAll inst.workerToInstanceReceiver).1.map
        (fun m => RunAction.workResponse m.size m.body) else [], ?_, ?_, ?_⟩
    · rw [← htrace]
      cases wr <;> simp
    · intro a ha
      cases wr <;> simp at ha
      obtain ⟨m, -, rfl⟩ := ha
      rfl
    · rw [← htrace]
      cases wr <;> simp [List.count_cons, List.count_append, List.count_eq_zero]

/-- Witness for `c4_run_order_amended` on a concrete instance with an empty
response backlog: the trace is process followed directly by `end_run`. -/
theorem c4_run_order_amended_witness :
    ∃ inst' trace,
      instanceRun
          { minBlockSize := 1, maxBlockSize := 256,
            audioInputsCount := 0, audioOutputsCount := 0,
            atomSequenceInputsCount := 0, atomSequenceOutputsCount := 0,
            cvInputsCount := 0, cvOutputsCount := 0,
            workerInterface := some { hasWorkResponse := true, hasEndRun := true },
            workerToInstanceReceiver := instantiateQueue }
          16
          { audioInputs := [], audioOutputs := [],
            atomSequenceInputsCount := 0, atomSequenceOutputsCount := 0,
            cvInputsCount := 0, cvOutputsCount := 0 } =
        Except.ok (inst', trace) ∧
      ∃ resps, trace = RunAction.process 16 :: resps ++ [RunAction.endRun] ∧
        (∀ a ∈ resps, RunAction.kind a = RunActionKind.workResponse) ∧
        trace.count RunAction.endRun = 1 := by
  refine ⟨_, _, rfl, ?_⟩
  exact c4_run_order_amended
    { minBlockSize := 1, maxBlockSize := 256,
      audioInputsCount := 0, audioOutputsCount := 0,
      atomSequenceInputsCount := 0, atomSequenceOutputsCount := 0,
      cvInputsCount := 0, cvOutputsCount := 0,
      workerInterface := some { hasWorkResponse := true, hasEndRun := true },
      workerToInstanceReceiver := instantiateQueue }
    16
    { audioInputs := [], audioOutputs := [],
      atomSequenceInputsCount := 0, atomSequenceOutputsCount := 0,
      cvInputsCount := 0, cvOutputsCount := 0 }
    _ _ true rfl rfl

end Livi
